import Mathlib

/-!
Janitor: retention of Kubernetes batch jobs

A verification development for `main.go` of the janitor tool. The program lists
the jobs matching a label selector, sorts them by start time with `sort.Sort`,
keeps the `max-count` most recent ones and deletes (or, in a dry run, only
reports) the older ones that have succeeded.

The development embeds the part of `main` that follows a successful listing
(lines 89 to 126 of `main.go`) together with `timeSlice` and `max`.
-/

namespace Janitor

/-! ## Data model -/

/-- One `v1.Job` of the listing, reduced to the three fields `main` reads:
`job.Name`, `job.Status.Succeeded` (an `int32`) and `job.Status.StartTime`
(a `*metav1.Time`, `none` standing for the nil pointer of a job that has not
started; a time instant is an integer). -/
structure Job where
  name : String
  succeeded : Int
  startTime : Option Int
  deriving DecidableEq

/-- Modelled from the spec: the method `Before` of the imported type
`metav1.Time` (package `k8s.io/apimachinery`) is not part of this repository.
It reports whether the instant `t` is before `u`; a missing (nil) time is
neither before nor after any other time. -/
def Before (t u : Option Int) : Bool :=
  match t, u with
  | some a, some b => decide (a < b)
  | _, _ => false

/-- The type `timeSlice []v1.Job`. -/
abbrev timeSlice := List Job

/-- Method `timeSlice.Len`. -/
def timeSlice.Len (p : timeSlice) : Int := p.length

/-- Method `timeSlice.Less`: `p[i].Status.StartTime.Before(p[j].Status.StartTime)`.
An index outside the slice (a run-time failure in Go, which `sort.Sort` never
provokes) yields `false`. -/
def timeSlice.Less (p : timeSlice) (i j : Nat) : Bool :=
  match p[i]?, p[j]? with
  | some a, some b => Before a.startTime b.startTime
  | _, _ => false

/-- Method `timeSlice.Swap`: `p[i], p[j] = p[j], p[i]`. An index outside the
slice leaves the slice unchanged. -/
def timeSlice.Swap (p : timeSlice) (i j : Nat) : timeSlice :=
  match p[i]?, p[j]? with
  | some a, some b => (p.set i b).set j a
  | _, _ => p

/-- Function `max` of `main.go`. -/
def max (x y : Int) : Int := if x > y then x else y

/-! ## Machine integers -/

/-- Largest value of Go's `int` on a 64-bit platform (on a 32-bit platform
the same development applies with 31 and 32 for 63 and 64). -/
def maxInt : Int := 2 ^ 63 - 1

/-- Smallest value of Go's `int` on a 64-bit platform. -/
def minInt : Int := -(2 ^ 63)

/-- Two's complement wrap-around of a mathematical integer into the 64-bit
`int` range, the result of Go's `int` arithmetic. -/
def wrapInt (x : Int) : Int := (x + 2 ^ 63) % 2 ^ 64 - 2 ^ 63

/-! ## The library routine `sort.Sort`

`sort.Sort` belongs to the Go standard library. The program is embedded with
the sorting routine as a parameter `sort : timeSlice → timeSlice` (the content
of the slice after the in-place sort). `SortContract` is what the library
documents; the definitions after it are the library's algorithms on short
slices, written over `timeSlice.Less` and `timeSlice.Swap`. -/

/-- The documented contract of `sort.Sort` on a `timeSlice`: the routine only
swaps elements, so the result is a permutation of the input; and when `Less`
is a transitive ordering, which it is as soon as every job has a start time,
the result is in ascending order as determined by `Less` (no later element
is `Less` than an earlier one). Stability is not promised. -/
structure SortContract (sort : timeSlice → timeSlice) : Prop where
  perm : ∀ p : timeSlice, (sort p).Perm p
  sorted : ∀ p : timeSlice, (∀ job ∈ p, job.startTime ≠ none) →
    ∀ i j : Nat, i < j → j < (sort p).length → timeSlice.Less (sort p) j i = false

/-- Inner loop of the library's `insertionSort(data, a, b)`:
`for j := i; j > a && data.Less(j, j-1); j-- { data.Swap(j, j-1) }`,
started at `j`. -/
def insertionSortInner (a : Nat) (data : timeSlice) : Nat → timeSlice
  | 0 => data
  | j + 1 =>
    if j + 1 > a ∧ timeSlice.Less data (j + 1) j = true then
      insertionSortInner a (timeSlice.Swap data (j + 1) j) j
    else data

/-- Outer loop of the library's `insertionSort`: `n` iterations of
`for i := ...; i < b; i++`, started at `i`. -/
def insertionSortOuter (a : Nat) (data : timeSlice) (i : Nat) : Nat → timeSlice
  | 0 => data
  | n + 1 => insertionSortOuter a (insertionSortInner a data i) (i + 1) n

/-- The library's `insertionSort(data, a, b)`. -/
def insertionSort (data : timeSlice) (a b : Nat) : timeSlice :=
  insertionSortOuter a data (a + 1) (b - (a + 1))

/-- The `n` iterations, started at `i`, of the shell pass with gap 6 in the
library's `quickSort` (Go 1.6 to 1.18):
`for i := a + 6; i < b; i++ { if data.Less(i, i-6) { data.Swap(i, i-6) } }`. -/
def shellPass (data : timeSlice) (i : Nat) : Nat → timeSlice
  | 0 => data
  | n + 1 =>
    shellPass (if timeSlice.Less data i (i - 6) = true then timeSlice.Swap data i (i - 6)
      else data) (i + 1) n

/-- `sort.Sort` on a slice of at most 12 elements in Go 1.19 and later
(`pdqsort` with `length <= maxInsertion`), and on a slice of at most 6
elements in every release: plain insertion sort of the whole slice. -/
def sortInsertion (data : timeSlice) : timeSlice :=
  insertionSort data 0 data.length

/-- `sort.Sort` on a slice of at most 12 elements in Go 1.6 to 1.18
(`quickSort` with `b-a <= 12`): a shell pass with gap 6 followed by insertion
sort. On longer slices the library partitions first; this definition applies
the same two passes to a slice of any length. -/
def sortShellInsertion (data : timeSlice) : timeSlice :=
  insertionSort (shellPass data 6 (data.length - 6)) 0 data.length

/-! ## The run -/

/-- What a run does that is observable from outside: the lines it prints and
the calls it makes to the cluster. -/
inductive Event where
  /-- Line 89: `There are %d jobs with matching label in the cluster.` -/
  | jobCount (n : Nat)
  /-- Line 98: `Job Name: %s, Succeeded: %d, Start time: %s` -/
  | jobInfo (job : Job)
  /-- Lines 89 and 104: an empty line. -/
  | blank
  /-- Line 111: `Deleting job %s.` -/
  | deletingJob (name : String)
  /-- Line 114: `Dry run is enabled. Not deleting job.` -/
  | dryRunNotice
  /-- Line 117: the call `batchClient.Delete(job.Name, ...)` with foreground
  propagation. -/
  | deleteCall (name : String)
  /-- Line 126: `Done.` -/
  | done
  deriving DecidableEq

/-- How a run ends. -/
inductive Outcome where
  /-- The run reached the end of `main`. -/
  | completed
  /-- Line 107: the slice expression `sortedJobs[:nJobsToRemove]` is out of
  range. -/
  | panicSliceBounds
  /-- Line 120: `panic(err)` after a failed delete call. -/
  | panicDelete (err : String)
  deriving DecidableEq

/-- Result of a run: its events in order, and how it ended. -/
structure RunResult where
  trace : List Event
  outcome : Outcome
  deriving DecidableEq

/-- The delete collaborator: `del n name` is the result of the call
`batchClient.Delete(name, ...)` when `n` delete calls were made before it in
the run; `none` is the nil error, `some err` a failure. -/
abbrev Deleter := Nat → String → Option String

/-- The loop of lines 109 to 124 over the truncated slice, `n` delete calls
having been made so far. Returns the events and, when a delete call fails,
the error `main` panics with. -/
def deleteLoop (dryRun : Bool) (del : Deleter) : Nat → List Job → List Event × Option String
  | _, [] => ([], none)
  | n, job :: rest =>
    if job.succeeded ≥ 1 then
      if dryRun then
        let r := deleteLoop dryRun del n rest
        (Event.deletingJob job.name :: Event.dryRunNotice :: r.1, r.2)
      else
        match del n job.name with
        | some err => ([Event.deletingJob job.name, Event.deleteCall job.name], some err)
        | none =>
          let r := deleteLoop dryRun del (n + 1) rest
          (Event.deletingJob job.name :: Event.deleteCall job.name :: r.1, r.2)
    else deleteLoop dryRun del n rest

/-- Lines 89 to 100 of `main`: the report of the listing. -/
def header (items : List Job) : List Event :=
  Event.jobCount items.length :: Event.blank :: items.map Event.jobInfo

/-- Line 106: `nJobsToRemove := max(len(sortedJobs)-*maxCount, 0)`, in `int`
arithmetic. -/
def nJobsToRemove (sortedJobs : timeSlice) (maxCount : Int) : Int :=
  max (wrapInt (timeSlice.Len sortedJobs - maxCount)) 0

/-- Lines 89 to 126 of `main`: the run after the listing `items` was obtained,
with `sort` the effect of `sort.Sort`, `maxCount` the flag `-max-count`,
`dryRun` the flag `-dry-run` and `del` the delete collaborator. The slice
`sortedJobs` is made with capacity `len(jobs.Items)`, and the slice expression
of line 107 fails unless `0 <= nJobsToRemove <= cap(sortedJobs)`. -/
def run (sort : timeSlice → timeSlice) (maxCount : Int) (dryRun : Bool) (del : Deleter)
    (items : List Job) : RunResult :=
  let sortedJobs : timeSlice := sort items
  let n := nJobsToRemove sortedJobs maxCount
  if 0 ≤ n ∧ n ≤ (items.length : Int) then
    let r := deleteLoop dryRun del 0 (sortedJobs.take n.toNat)
    match r.2 with
    | some err => ⟨header items ++ Event.blank :: r.1, Outcome.panicDelete err⟩
    | none => ⟨header items ++ Event.blank :: r.1 ++ [Event.done], Outcome.completed⟩
  else ⟨header items ++ [Event.blank], Outcome.panicSliceBounds⟩

/-! ## Observations on a run -/

/-- The names for which `Deleting job` is reached, in order. -/
def selectedNames : List Event → List String
  | [] => []
  | Event.deletingJob name :: rest => name :: selectedNames rest
  | _ :: rest => selectedNames rest

/-- The names passed to `batchClient.Delete`, in order. -/
def deleteCalls : List Event → List String
  | [] => []
  | Event.deleteCall name :: rest => name :: deleteCalls rest
  | _ :: rest => deleteCalls rest

/-- Eligibility test of line 110: `job.Status.Succeeded >= 1`. -/
def hasSucceeded (job : Job) : Bool := decide (job.succeeded ≥ 1)

/-- The jobs for which `Deleting job` is reached by the loop of lines 109 to
124 when no delete call stops it: the delete-set, in the order of the loop. -/
def deleteSet (sort : timeSlice → timeSlice) (maxCount : Int) (items : List Job) : List Job :=
  let sortedJobs : timeSlice := sort items
  let n := nJobsToRemove sortedJobs maxCount
  if 0 ≤ n ∧ n ≤ (items.length : Int) then
    (sortedJobs.take n.toNat).filter hasSucceeded
  else []

/-! ## Auxiliary definitions -/

/-- Events of one pass of the loop body in a dry run. -/
def dryRunEvents (job : Job) : List Event :=
  [Event.deletingJob job.name, Event.dryRunNotice]

/-- Events of one pass of the loop body in a live run. -/
def liveEvents (job : Job) : List Event :=
  [Event.deletingJob job.name, Event.deleteCall job.name]

/-! ## The delete-set in the words of the specification -/

/-- Start time of a job that has one (0 stands in for a missing start time). -/
def Job.start (job : Job) : Int := job.startTime.getD 0

/-- Step 1 of `computeDeleteSet` in the words of the specification: the jobs
sorted ascending by start time, oldest first. -/
def specSortByStartTime (jobs : List Job) : List Job :=
  jobs.insertionSort (fun a b => a.start ≤ b.start)

/-- Steps 2 to 4 of `computeDeleteSet` in the words of the specification:
of the sorted jobs the oldest `max(len(jobs) - keep, 0)`, restricted to the
jobs with `succeededCount >= 1`, in the same order. -/
def specDeleteSet (jobs : List Job) (keep : Int) : List Job :=
  ((specSortByStartTime jobs).take (Max.max ((jobs.length : Int) - keep) 0).toNat).filter
    (fun job => decide (job.succeeded ≥ 1))

/-! ## The two parts of the sorted slice -/

/-- The slice after line 107 when the retention count is not negative: the
first `len - maxCount` jobs of the sorted slice. -/
def candidates (sort : timeSlice → timeSlice) (maxCount : Int) (items : List Job) : List Job :=
  (sort items).take (items.length - maxCount.toNat)

/-- The jobs of the sorted slice that line 107 cuts off: the last `maxCount`
ones when the retention count is not negative. -/
def retained (sort : timeSlice → timeSlice) (maxCount : Int) (items : List Job) : List Job :=
  (sort items).drop (items.length - maxCount.toNat)

/-! ## Insertion sort read on lists -/

/-- One run of the inner loop of `insertionSort`, read on lists: `x` sinks
into the part of the slice before it, given nearest element first, past every
element it is `Less` than. The result is again nearest (last) element first. -/
def sinkInto (x : Job) : List Job → List Job
  | [] => [x]
  | y :: ys => if Before x.startTime y.startTime = true then y :: sinkInto x ys else x :: y :: ys

/-- The outer loop of `insertionSort`, read on lists: the elements of the
second list sink one after the other into the first, which is kept last
element first. -/
def sinkAll : List Job → List Job → List Job
  | done, [] => done.reverse
  | done, x :: rest => sinkAll (sinkInto x done) rest

/-! ## Example listings and delete collaborators -/

/-- Scenario 1 of the specification: five succeeded jobs, listed out of order,
with start times 1 to 5. -/
def fiveJobs : List Job :=
  [⟨"job-c", 1, some 3⟩, ⟨"job-a", 1, some 1⟩, ⟨"job-e", 1, some 5⟩, ⟨"job-b", 1, some 2⟩,
    ⟨"job-d", 1, some 4⟩]

/-- Scenario 4 of the specification: four jobs, the oldest still running. -/
def fourJobs : List Job :=
  [⟨"job-a", 0, some 1⟩, ⟨"job-b", 1, some 2⟩, ⟨"job-c", 1, some 3⟩, ⟨"job-d", 0, some 4⟩]

/-- Scenario 6 of the specification: two succeeded jobs. -/
def twoJobs : List Job :=
  [⟨"job-a", 1, some 1⟩, ⟨"job-b", 1, some 2⟩]

/-- Three succeeded jobs. -/
def threeJobs : List Job :=
  [⟨"job-a", 1, some 1⟩, ⟨"job-b", 1, some 2⟩, ⟨"job-c", 1, some 3⟩]

/-- A delete collaborator that never fails. -/
def deleteOk : Deleter := fun _ _ => none

/-- A delete collaborator whose first call fails and whose later calls succeed. -/
def deleteFailsFirst : Deleter := fun n _ => if n = 0 then some "boom" else none

/-- A delete collaborator whose second call fails and whose other calls succeed. -/
def deleteFailsSecond : Deleter := fun n _ => if n = 1 then some "boom" else none

/-- Three jobs, the second of which has not started. -/
def gapJobs : List Job :=
  [⟨"job-a", 1, some 2⟩, ⟨"job-b", 0, none⟩, ⟨"job-c", 1, some 1⟩]

/-- Seven succeeded jobs; `job-a` and `job-b` have the same start time. -/
def sevenJobs : List Job :=
  [⟨"job-a", 1, some 5⟩, ⟨"job-b", 1, some 5⟩, ⟨"job-c", 1, some 9⟩, ⟨"job-d", 1, some 9⟩,
    ⟨"job-e", 1, some 9⟩, ⟨"job-f", 1, some 9⟩, ⟨"job-g", 1, some 3⟩]

/-! ## Integer arithmetic of line 106 -/

theorem wrapInt_of_inRange (x : Int) (h1 : minInt ≤ x) (h2 : x ≤ maxInt) : wrapInt x = x := by
  unfold wrapInt
  unfold minInt at h1
  unfold maxInt at h2
  omega

theorem nJobsToRemove_of_nonneg (p : timeSlice) (K : Int) (hK : 0 ≤ K) (hKmax : K ≤ maxInt)
    (hlen : (p.length : Int) ≤ maxInt) :
    nJobsToRemove p K = ((p.length - K.toNat : Nat) : Int) := by
  unfold nJobsToRemove timeSlice.Len
  rw [wrapInt_of_inRange]
  · unfold max
    split <;> omega
  · unfold minInt; unfold maxInt at hKmax; omega
  · omega

/-! ## The loop of lines 109 to 124 -/

theorem selectedNames_append (a b : List Event) :
    selectedNames (a ++ b) = selectedNames a ++ selectedNames b := by
  induction a with
  | nil => rfl
  | cons e a ih => cases e <;> simp [selectedNames, ih]

theorem deleteCalls_append (a b : List Event) :
    deleteCalls (a ++ b) = deleteCalls a ++ deleteCalls b := by
  induction a with
  | nil => rfl
  | cons e a ih => cases e <;> simp [deleteCalls, ih]

theorem selectedNames_jobInfo (items : List Job) :
    selectedNames (items.map Event.jobInfo) = [] := by
  induction items with
  | nil => rfl
  | cons x xs ih => simpa [selectedNames] using ih

theorem deleteCalls_jobInfo (items : List Job) :
    deleteCalls (items.map Event.jobInfo) = [] := by
  induction items with
  | nil => rfl
  | cons x xs ih => simpa [deleteCalls] using ih

theorem selectedNames_header (items : List Job) : selectedNames (header items) = [] := by
  unfold header
  simp only [selectedNames]
  exact selectedNames_jobInfo items

theorem deleteCalls_header (items : List Job) : deleteCalls (header items) = [] := by
  unfold header
  simp only [deleteCalls]
  exact deleteCalls_jobInfo items

theorem selectedNames_bind_dry (s : List Job) :
    selectedNames (s.flatMap dryRunEvents) = s.map Job.name := by
  induction s with
  | nil => rfl
  | cons x xs ih => rw [List.flatMap_cons, selectedNames_append, ih]; rfl

theorem deleteCalls_bind_dry (s : List Job) : deleteCalls (s.flatMap dryRunEvents) = [] := by
  induction s with
  | nil => rfl
  | cons x xs ih => simpa [dryRunEvents, deleteCalls] using ih

theorem selectedNames_bind_live (s : List Job) :
    selectedNames (s.flatMap liveEvents) = s.map Job.name := by
  induction s with
  | nil => rfl
  | cons x xs ih => rw [List.flatMap_cons, selectedNames_append, ih]; rfl

theorem deleteCalls_bind_live (s : List Job) :
    deleteCalls (s.flatMap liveEvents) = s.map Job.name := by
  induction s with
  | nil => rfl
  | cons x xs ih => rw [List.flatMap_cons, deleteCalls_append, ih]; rfl

theorem deleteLoop_dry (del : Deleter) (n : Nat) (l : List Job) :
    deleteLoop true del n l = ((l.filter hasSucceeded).flatMap dryRunEvents, none) := by
  induction l with
  | nil => rfl
  | cons x xs ih =>
    by_cases hx : x.succeeded ≥ 1
    · simp [deleteLoop, hx, ih, hasSucceeded, dryRunEvents]
    · simp [deleteLoop, hx, ih, hasSucceeded]

/-- A live loop in which the delete call fails for `X` after succeeding for
the eligible jobs `pre` before it. -/
theorem deleteLoop_live_fail (del : Deleter) (l : List Job) :
    ∀ (n : Nat) (pre : List Job) (X : Job) (post : List Job) (err : String),
      l.filter hasSucceeded = pre ++ X :: post →
      (∀ i (h : i < pre.length), del (n + i) (pre.get ⟨i, h⟩).name = none) →
      del (n + pre.length) X.name = some err →
      deleteLoop false del n l = ((pre ++ [X]).flatMap liveEvents, some err) := by
  induction l with
  | nil => intro n pre X post err h; simp at h
  | cons x xs ih =>
    intro n pre X post err hf hok hfail
    by_cases hx : x.succeeded ≥ 1
    · have hx' : hasSucceeded x = true := by simp [hasSucceeded, hx]
      rw [List.filter_cons_of_pos hx'] at hf
      cases pre with
      | nil =>
        simp only [List.nil_append, List.cons.injEq] at hf
        obtain ⟨rfl, _⟩ := hf
        simp only [List.length_nil, Nat.add_zero] at hfail
        simp [deleteLoop, hx, hfail, liveEvents]
      | cons p pre =>
        simp only [List.cons_append, List.cons.injEq] at hf
        obtain ⟨rfl, hf⟩ := hf
        have h0 : del n x.name = none := by
          have := hok 0 (by simp)
          simpa using this
        have hrec := ih (n + 1) pre X post err hf
          (fun i h => by
            have := hok (i + 1) (by simp; omega)
            simpa [Nat.add_assoc, Nat.add_comm 1 i] using this)
          (by simpa [Nat.add_assoc, Nat.add_comm 1] using hfail)
        simp [deleteLoop, hx, h0, hrec, liveEvents]
    · have hx' : hasSucceeded x = false := by simp [hasSucceeded, hx]
      rw [List.filter_cons_of_neg (by simp [hx'])] at hf
      simpa [deleteLoop, hx] using ih n pre X post err hf hok hfail

/-- A live loop in which no delete call fails. -/
theorem deleteLoop_live_ok (del : Deleter) (l : List Job) :
    ∀ (n : Nat) (s : List Job), l.filter hasSucceeded = s →
      (∀ i (h : i < s.length), del (n + i) (s.get ⟨i, h⟩).name = none) →
      deleteLoop false del n l = (s.flatMap liveEvents, none) := by
  induction l with
  | nil => intro n s hs _; subst hs; rfl
  | cons x xs ih =>
    intro n s hs hok
    by_cases hx : x.succeeded ≥ 1
    · have hx' : hasSucceeded x = true := by simp [hasSucceeded, hx]
      rw [List.filter_cons_of_pos hx'] at hs
      subst hs
      have h0 : del n x.name = none := by
        have := hok 0 (by simp)
        simpa using this
      have hrec := ih (n + 1) _ rfl (fun i h => by
        have := hok (i + 1) (by simp; omega)
        simpa [Nat.add_assoc, Nat.add_comm 1 i] using this)
      simp [deleteLoop, hx, h0, hrec, liveEvents]
    · have hx' : hasSucceeded x = false := by simp [hasSucceeded, hx]
      rw [List.filter_cons_of_neg (by simp [hx'])] at hs
      simpa [deleteLoop, hx] using ih n s hs hok

/-- Whatever the delete calls return, a live loop attempts a prefix of the
eligible jobs, each once, in order. -/
theorem deleteLoop_live_prefix (del : Deleter) (l : List Job) :
    ∀ (n : Nat), ∃ k, (deleteLoop false del n l).1 = ((l.filter hasSucceeded).take k).flatMap liveEvents := by
  induction l with
  | nil => intro n; exact ⟨0, rfl⟩
  | cons x xs ih =>
    intro n
    by_cases hx : x.succeeded ≥ 1
    · have hx' : hasSucceeded x = true := by simp [hasSucceeded, hx]
      rw [List.filter_cons_of_pos hx']
      cases hd : del n x.name with
      | some err => exact ⟨1, by simp [deleteLoop, hx, hd, liveEvents]⟩
      | none =>
        obtain ⟨k, hk⟩ := ih (n + 1)
        exact ⟨k + 1, by simp [deleteLoop, hx, hd, hk, liveEvents]⟩
    · have hx' : hasSucceeded x = false := by simp [hasSucceeded, hx]
      rw [List.filter_cons_of_neg (by simp [hx'])]
      obtain ⟨k, hk⟩ := ih n
      exact ⟨k, by simpa [deleteLoop, hx] using hk⟩

/-! ## The run in terms of the loop -/

theorem SortContract.length_eq {sort : timeSlice → timeSlice} (hs : SortContract sort)
    (p : timeSlice) : (sort p).length = p.length :=
  (hs.perm p).length_eq

theorem deleteSet_eq_candidates {sort : timeSlice → timeSlice} (hs : SortContract sort)
    (L : List Job) (K : Int) (hK : 0 ≤ K) (hKmax : K ≤ maxInt)
    (hlen : (L.length : Int) ≤ maxInt) :
    deleteSet sort K L = (candidates sort K L).filter hasSucceeded := by
  have hn := nJobsToRemove_of_nonneg (sort L) K hK hKmax (by rw [hs.length_eq]; exact hlen)
  rw [hs.length_eq] at hn
  unfold deleteSet candidates
  simp only [hn]
  rw [if_pos (by omega)]
  simp

theorem run_eq_candidates {sort : timeSlice → timeSlice} (hs : SortContract sort)
    (L : List Job) (K : Int) (hK : 0 ≤ K) (hKmax : K ≤ maxInt)
    (hlen : (L.length : Int) ≤ maxInt) (dryRun : Bool) (del : Deleter) :
    run sort K dryRun del L =
      match (deleteLoop dryRun del 0 (candidates sort K L)).2 with
      | some err =>
        ⟨header L ++ Event.blank :: (deleteLoop dryRun del 0 (candidates sort K L)).1,
          Outcome.panicDelete err⟩
      | none =>
        ⟨header L ++ Event.blank :: (deleteLoop dryRun del 0 (candidates sort K L)).1
          ++ [Event.done], Outcome.completed⟩ := by
  have hn := nJobsToRemove_of_nonneg (sort L) K hK hKmax (by rw [hs.length_eq]; exact hlen)
  rw [hs.length_eq] at hn
  unfold run candidates
  simp only [hn]
  rw [if_pos (by omega)]
  simp

/-- Whatever the flags and the delete collaborator, the jobs a run reaches
are a prefix of the delete-set, and in a live run each of them is passed to
`Delete` right away. -/
theorem run_names_prefix (sort : timeSlice → timeSlice) (L : List Job) (K : Int)
    (dryRun : Bool) (del : Deleter) :
    ∃ k, selectedNames (run sort K dryRun del L).trace
          = ((deleteSet sort K L).take k).map Job.name ∧
        deleteCalls (run sort K dryRun del L).trace
          = if dryRun = true then [] else ((deleteSet sort K L).take k).map Job.name := by
  unfold run deleteSet
  simp only
  split
  · cases dryRun with
    | true =>
      refine ⟨(((sort L).take (nJobsToRemove (sort L) K).toNat).filter hasSucceeded).length, ?_⟩
      simp [deleteLoop_dry, selectedNames_append, deleteCalls_append, selectedNames_header,
        deleteCalls_header, selectedNames_jobInfo, deleteCalls_jobInfo, selectedNames_bind_dry, deleteCalls_bind_dry, selectedNames,
        deleteCalls]
    | false =>
      obtain ⟨k, hk⟩ := deleteLoop_live_prefix del
        ((sort L).take (nJobsToRemove (sort L) K).toNat) 0
      refine ⟨k, ?_⟩
      split <;>
      simp [hk, selectedNames_append, deleteCalls_append, selectedNames_header,
        deleteCalls_header, selectedNames_jobInfo, deleteCalls_jobInfo, selectedNames_bind_live, deleteCalls_bind_live, selectedNames,
        deleteCalls]
  · refine ⟨0, ?_⟩
    simp [selectedNames_append, deleteCalls_append, selectedNames_header,
        deleteCalls_header, selectedNames_jobInfo, deleteCalls_jobInfo, selectedNames,
        deleteCalls]

/-! ## The library's insertion sort -/

theorem Less_cons_succ (a : Job) (p : timeSlice) (i j : Nat) :
    timeSlice.Less (a :: p) (i + 1) (j + 1) = timeSlice.Less p i j := by
  simp [timeSlice.Less]

theorem Swap_cons_succ (a : Job) (p : timeSlice) (i j : Nat) :
    timeSlice.Swap (a :: p) (i + 1) (j + 1) = a :: timeSlice.Swap p i j := by
  simp only [timeSlice.Swap, List.getElem?_cons_succ]
  cases hi : p[i]? with
  | none => simp
  | some u =>
    cases hj : p[j]? with
    | none => simp
    | some v => simp

theorem Less_append_adjacent (A : List Job) (y x : Job) (rest : List Job) :
    timeSlice.Less (A ++ y :: x :: rest) (A.length + 1) A.length
      = Before x.startTime y.startTime := by
  induction A with
  | nil => simp [timeSlice.Less]
  | cons a A ih => simpa [Less_cons_succ] using ih

theorem Swap_append_adjacent (A : List Job) (y x : Job) (rest : List Job) :
    timeSlice.Swap (A ++ y :: x :: rest) (A.length + 1) A.length = A ++ x :: y :: rest := by
  induction A with
  | nil => simp [timeSlice.Swap]
  | cons a A ih => simpa [Swap_cons_succ] using ih

theorem length_sinkInto (x : Job) (R : List Job) : (sinkInto x R).length = R.length + 1 := by
  induction R with
  | nil => rfl
  | cons y ys ih =>
    unfold sinkInto
    split <;> simp [ih]

theorem insertionSortInner_eq_sinkInto (x : Job) (R : List Job) :
    ∀ rest : List Job,
      insertionSortInner 0 (R.reverse ++ x :: rest) R.length = (sinkInto x R).reverse ++ rest := by
  induction R with
  | nil => intro rest; simp [insertionSortInner, sinkInto]
  | cons y ys ih =>
    intro rest
    have hlen : (y :: ys).length = ys.reverse.length + 1 := by simp
    have hdata : (y :: ys).reverse ++ x :: rest = ys.reverse ++ y :: x :: rest := by simp
    rw [hdata, hlen]
    unfold insertionSortInner
    rw [Less_append_adjacent]
    by_cases hb : Before x.startTime y.startTime = true
    · rw [if_pos ⟨by omega, hb⟩, Swap_append_adjacent]
      have := ih (y :: rest)
      simp only [List.length_reverse] at this ⊢
      rw [this]
      simp [sinkInto, hb]
    · rw [if_neg (fun h => hb h.2)]
      simp [sinkInto, hb]

theorem insertionSortOuter_eq_sinkAll (rest : List Job) :
    ∀ R : List Job,
      insertionSortOuter 0 (R.reverse ++ rest) R.length rest.length = sinkAll R rest := by
  induction rest with
  | nil => intro R; simp [insertionSortOuter, sinkAll]
  | cons x rest ih =>
    intro R
    simp only [List.length_cons, insertionSortOuter, sinkAll]
    rw [insertionSortInner_eq_sinkInto, ← length_sinkInto x R]
    exact ih (sinkInto x R)

theorem sortInsertion_eq_sinkAll (data : timeSlice) : sortInsertion data = sinkAll [] data := by
  unfold sortInsertion insertionSort
  cases data with
  | nil => rfl
  | cons x rest =>
    have := insertionSortOuter_eq_sinkAll rest [x]
    simpa [sinkAll, sinkInto] using this

theorem sinkInto_perm (x : Job) (R : List Job) : (sinkInto x R).Perm (x :: R) := by
  induction R with
  | nil => exact List.Perm.refl _
  | cons y ys ih =>
    unfold sinkInto
    split
    · exact (ih.cons y).trans (List.Perm.swap x y ys)
    · exact List.Perm.refl _

theorem sinkAll_perm (rest : List Job) : ∀ R : List Job, (sinkAll R rest).Perm (R.reverse ++ rest) := by
  induction rest with
  | nil => intro R; simp [sinkAll]
  | cons x rest ih =>
    intro R
    unfold sinkAll
    refine (ih (sinkInto x R)).trans ?_
    have h1 : (sinkInto x R).reverse.Perm (R.reverse ++ [x]) := by
      refine (List.reverse_perm _).trans ((sinkInto_perm x R).trans ?_)
      exact (List.perm_append_singleton x R).symm.trans ((List.reverse_perm R).symm.append_right [x])
    simpa using h1.append_right rest

theorem sortInsertion_perm (data : timeSlice) : (sortInsertion data).Perm data := by
  rw [sortInsertion_eq_sinkAll]
  simpa using sinkAll_perm data []

/-- `Before` on present start times is the order of the integers. -/
theorem Before_some (a b : Int) : Before (some a) (some b) = decide (a < b) := rfl

theorem Before_eq_false_iff (a b : Job) (ha : a.startTime ≠ none) (hb : b.startTime ≠ none) :
    Before a.startTime b.startTime = false ↔ b.start ≤ a.start := by
  cases h1 : a.startTime with
  | none => exact absurd h1 ha
  | some u =>
    cases h2 : b.startTime with
    | none => exact absurd h2 hb
    | some v => simp [Before, Job.start, h1, h2]

theorem sinkInto_descending (x : Job) (hx : x.startTime ≠ none) (R : List Job)
    (hR : ∀ job ∈ R, job.startTime ≠ none)
    (hd : R.Pairwise (fun a b => b.start ≤ a.start)) :
    (sinkInto x R).Pairwise (fun a b => b.start ≤ a.start) := by
  induction R with
  | nil => simp [sinkInto]
  | cons y ys ih =>
    have hy : y.startTime ≠ none := hR y (List.mem_cons_self _ _)
    have hys : ∀ job ∈ ys, job.startTime ≠ none := fun job h => hR job (List.mem_cons_of_mem _ h)
    rw [List.pairwise_cons] at hd
    unfold sinkInto
    split
    · next hb =>
      rw [List.pairwise_cons]
      refine ⟨?_, ih hys hd.2⟩
      intro z hz
      rcases (List.mem_cons.mp ((sinkInto_perm x ys).mem_iff.mp hz)) with rfl | hz
      · have : Before z.startTime y.startTime = true := hb
        cases h1 : z.startTime with
        | none => exact absurd h1 hx
        | some u =>
          cases h2 : y.startTime with
          | none => exact absurd h2 hy
          | some v =>
            rw [h1, h2, Before_some] at this
            have := of_decide_eq_true this
            simp only [Job.start, h1, h2, Option.getD_some]
            omega
      · exact hd.1 z hz
    · next hb =>
      have hxy : y.start ≤ x.start :=
        (Before_eq_false_iff x y hx hy).mp (by simpa using hb)
      rw [List.pairwise_cons]
      refine ⟨?_, List.pairwise_cons.mpr hd⟩
      intro z hz
      rcases List.mem_cons.mp hz with rfl | hz
      · exact hxy
      · exact le_trans (hd.1 z hz) hxy

theorem sinkAll_ascending (rest : List Job) :
    ∀ R : List Job, (∀ job ∈ R, job.startTime ≠ none) → (∀ job ∈ rest, job.startTime ≠ none) →
      R.Pairwise (fun a b => b.start ≤ a.start) →
      (sinkAll R rest).Pairwise (fun a b => a.start ≤ b.start) := by
  induction rest with
  | nil =>
    intro R _ _ hd
    simpa [sinkAll, List.pairwise_reverse] using hd
  | cons x rest ih =>
    intro R hR hrest hd
    unfold sinkAll
    have hx : x.startTime ≠ none := hrest x (List.mem_cons_self _ _)
    refine ih (sinkInto x R) ?_ (fun job h => hrest job (List.mem_cons_of_mem _ h))
      (sinkInto_descending x hx R hR hd)
    intro job hjob
    rcases List.mem_cons.mp ((sinkInto_perm x R).mem_iff.mp hjob) with rfl | h
    · exact hx
    · exact hR job h

/-- Ascending order read on the elements is ascending order as `sort.Sort`
understands it: no later element is `Less` than an earlier one. -/
theorem not_Less_of_ascending (p : timeSlice) (hp : ∀ job ∈ p, job.startTime ≠ none)
    (h : p.Pairwise (fun a b => a.start ≤ b.start)) (i j : Nat) (hij : i < j)
    (hj : j < p.length) : timeSlice.Less p j i = false := by
  have hi : i < p.length := by omega
  have hle := (List.pairwise_iff_getElem.mp h) i j hi hj hij
  unfold timeSlice.Less
  rw [List.getElem?_eq_getElem hj, List.getElem?_eq_getElem hi]
  exact (Before_eq_false_iff p[j] p[i] (hp _ (List.getElem_mem _)) (hp _ (List.getElem_mem _))).mpr hle

/-- The converse reading. -/
theorem ascending_of_not_Less (p : timeSlice) (hp : ∀ job ∈ p, job.startTime ≠ none)
    (h : ∀ i j : Nat, i < j → j < p.length → timeSlice.Less p j i = false) :
    p.Pairwise (fun a b => a.start ≤ b.start) := by
  rw [List.pairwise_iff_getElem]
  intro i j hi hj hij
  have := h i j hij hj
  unfold timeSlice.Less at this
  rw [List.getElem?_eq_getElem hj, List.getElem?_eq_getElem hi] at this
  exact (Before_eq_false_iff p[j] p[i] (hp _ (List.getElem_mem _)) (hp _ (List.getElem_mem _))).mp this

theorem sortInsertion_contract : SortContract sortInsertion where
  perm := sortInsertion_perm
  sorted := by
    intro p hp i j hij hj
    have hmem : ∀ job ∈ sortInsertion p, job.startTime ≠ none :=
      fun job h => hp job ((sortInsertion_perm p).mem_iff.mp h)
    refine not_Less_of_ascending _ hmem ?_ i j hij hj
    rw [sortInsertion_eq_sinkAll]
    exact sinkAll_ascending p [] (by simp) hp List.Pairwise.nil

/-! ## The shell pass -/

theorem set_perm_cons (b x : Job) (p : List Job) :
    ∀ j : Nat, p[j]? = some b → (b :: p.set j x).Perm (x :: p) := by
  induction p with
  | nil => intro j h; simp at h
  | cons y p ih =>
    intro j h
    cases j with
    | zero =>
      simp only [List.getElem?_cons_zero, Option.some.injEq] at h
      subst h
      simpa using List.Perm.swap x y p
    | succ j =>
      simp only [List.getElem?_cons_succ] at h
      simp only [List.set_cons_succ]
      exact (List.Perm.swap y b _).trans (((ih j h).cons y).trans (List.Perm.swap x y p))

theorem Swap_perm (p : timeSlice) : ∀ i j : Nat, (timeSlice.Swap p i j).Perm p := by
  induction p with
  | nil => intro i j; simp [timeSlice.Swap]
  | cons y p ih =>
    intro i j
    cases i with
    | zero =>
      cases j with
      | zero => simp [timeSlice.Swap]
      | succ j =>
        simp only [timeSlice.Swap, List.getElem?_cons_zero, List.getElem?_cons_succ]
        cases hj : p[j]? with
        | none => simp
        | some b => simpa using set_perm_cons b y p j hj
    | succ i =>
      cases j with
      | zero =>
        simp only [timeSlice.Swap, List.getElem?_cons_zero, List.getElem?_cons_succ]
        cases hi : p[i]? with
        | none => simp
        | some a => simpa using set_perm_cons a y p i hi
      | succ j =>
        rw [Swap_cons_succ]
        exact (ih i j).cons y

theorem shellPass_perm (n : Nat) : ∀ (data : timeSlice) (i : Nat), (shellPass data i n).Perm data := by
  induction n with
  | zero => intro data i; exact List.Perm.refl _
  | succ n ih =>
    intro data i
    unfold shellPass
    refine (ih _ (i + 1)).trans ?_
    split
    · exact Swap_perm data i (i - 6)
    · exact List.Perm.refl _

theorem sortShellInsertion_eq (data : timeSlice) :
    sortShellInsertion data = sortInsertion (shellPass data 6 (data.length - 6)) := by
  unfold sortShellInsertion sortInsertion
  rw [(shellPass_perm _ data 6).length_eq]

theorem sortShellInsertion_contract : SortContract sortShellInsertion where
  perm := by
    intro p
    rw [sortShellInsertion_eq]
    exact (sortInsertion_perm _).trans (shellPass_perm _ p 6)
  sorted := by
    intro p hp i j hij hj
    rw [sortShellInsertion_eq] at hj ⊢
    exact sortInsertion_contract.sorted _
      (fun job h => hp job ((shellPass_perm _ p 6).mem_iff.mp h)) i j hij hj

/-! ## Whole runs -/

theorem run_dry {sort : timeSlice → timeSlice} (hs : SortContract sort)
    (L : List Job) (K : Int) (hK : 0 ≤ K) (hKmax : K ≤ maxInt)
    (hlen : (L.length : Int) ≤ maxInt) (del : Deleter) :
    run sort K true del L =
      ⟨header L ++ Event.blank :: (deleteSet sort K L).flatMap dryRunEvents ++ [Event.done],
        Outcome.completed⟩ := by
  rw [run_eq_candidates hs L K hK hKmax hlen, deleteSet_eq_candidates hs L K hK hKmax hlen,
    deleteLoop_dry]

theorem run_live_ok {sort : timeSlice → timeSlice} (hs : SortContract sort)
    (L : List Job) (K : Int) (hK : 0 ≤ K) (hKmax : K ≤ maxInt)
    (hlen : (L.length : Int) ≤ maxInt) (del : Deleter)
    (hok : ∀ i (h : i < (deleteSet sort K L).length),
      del i ((deleteSet sort K L).get ⟨i, h⟩).name = none) :
    run sort K false del L =
      ⟨header L ++ Event.blank :: (deleteSet sort K L).flatMap liveEvents ++ [Event.done],
        Outcome.completed⟩ := by
  have h := deleteLoop_live_ok del (candidates sort K L) 0 (deleteSet sort K L)
    (deleteSet_eq_candidates hs L K hK hKmax hlen).symm (by simpa using hok)
  rw [run_eq_candidates hs L K hK hKmax hlen, h]

theorem run_live_fail {sort : timeSlice → timeSlice} (hs : SortContract sort)
    (L : List Job) (K : Int) (hK : 0 ≤ K) (hKmax : K ≤ maxInt)
    (hlen : (L.length : Int) ≤ maxInt) (del : Deleter)
    (pre : List Job) (X : Job) (post : List Job) (err : String)
    (hset : deleteSet sort K L = pre ++ X :: post)
    (hok : ∀ i (h : i < pre.length), del i (pre.get ⟨i, h⟩).name = none)
    (hfail : del pre.length X.name = some err) :
    run sort K false del L =
      ⟨header L ++ Event.blank :: (pre ++ [X]).flatMap liveEvents, Outcome.panicDelete err⟩ := by
  have h := deleteLoop_live_fail del (candidates sort K L) 0 pre X post err
    (by rw [← deleteSet_eq_candidates hs L K hK hKmax hlen]; exact hset)
    (by simpa using hok) (by simpa using hfail)
  rw [run_eq_candidates hs L K hK hKmax hlen, h]

/-! ## Sorting by start time -/

theorem SortContract.ascending {sort : timeSlice → timeSlice} (hs : SortContract sort)
    (L : List Job) (hstart : ∀ job ∈ L, job.startTime ≠ none) :
    (sort L).Pairwise (fun a b => a.start ≤ b.start) :=
  ascending_of_not_Less (sort L) (fun job h => hstart job ((hs.perm L).mem_iff.mp h))
    (hs.sorted L hstart)

theorem start_ne_of_startTime_ne (a b : Job) (ha : a.startTime ≠ none) (hb : b.startTime ≠ none)
    (h : a.startTime ≠ b.startTime) : a.start ≠ b.start := by
  cases h1 : a.startTime with
  | none => exact absurd h1 ha
  | some u =>
    cases h2 : b.startTime with
    | none => exact absurd h2 hb
    | some v =>
      rw [h1, h2] at h
      simp only [Job.start, h1, h2, Option.getD_some]
      intro huv
      exact h (by rw [huv])

/-- A permutation of a listing with present, pairwise distinct start times
that is ascending is strictly ascending. -/
theorem strictly_ascending_of_perm (L S : List Job) (hperm : S.Perm L)
    (hstart : ∀ job ∈ L, job.startTime ≠ none)
    (hdist : L.Pairwise (fun a b => a.startTime ≠ b.startTime))
    (hasc : S.Pairwise (fun a b => a.start ≤ b.start)) :
    S.Pairwise (fun a b => a.start < b.start) := by
  have hdistS : S.Pairwise (fun a b => a.startTime ≠ b.startTime) :=
    (hperm.pairwise_iff (fun {a b} h => h.symm)).mpr hdist
  have hboth := hasc.and hdistS
  refine hboth.imp_of_mem ?_
  intro a b ha hb h
  have hne := start_ne_of_startTime_ne a b (hstart a (hperm.mem_iff.mp ha))
    (hstart b (hperm.mem_iff.mp hb)) h.2
  exact lt_of_le_of_ne h.1 hne

theorem specSortByStartTime_perm (L : List Job) : (specSortByStartTime L).Perm L :=
  List.perm_insertionSort _ L

theorem specSortByStartTime_ascending (L : List Job) :
    (specSortByStartTime L).Pairwise (fun a b => a.start ≤ b.start) := by
  have : IsTotal Job (fun a b => a.start ≤ b.start) := ⟨fun a b => le_total a.start b.start⟩
  have : IsTrans Job (fun a b => a.start ≤ b.start) := ⟨fun a b c h1 h2 => le_trans h1 h2⟩
  exact List.sorted_insertionSort (fun a b : Job => a.start ≤ b.start) L

/-- With present, pairwise distinct start times every sorting routine that
keeps the contract of `sort.Sort` returns the ascending arrangement. -/
theorem sort_eq_specSort {sort : timeSlice → timeSlice} (hs : SortContract sort)
    (L : List Job) (hstart : ∀ job ∈ L, job.startTime ≠ none)
    (hdist : L.Pairwise (fun a b => a.startTime ≠ b.startTime)) :
    sort L = specSortByStartTime L := by
  have h1 := strictly_ascending_of_perm L (sort L) (hs.perm L) hstart hdist
    (hs.ascending L hstart)
  have h2 := strictly_ascending_of_perm L (specSortByStartTime L) (specSortByStartTime_perm L)
    hstart hdist (specSortByStartTime_ascending L)
  have : IsAntisymm Job (fun a b => a.start < b.start) :=
    ⟨fun a b hab hba => absurd (lt_trans hab hba) (lt_irrefl _)⟩
  exact List.eq_of_perm_of_sorted ((hs.perm L).trans (specSortByStartTime_perm L).symm) h1 h2

theorem specDeleteSet_eq (L : List Job) (K : Int) (hK : 0 ≤ K) :
    specDeleteSet L K = ((specSortByStartTime L).take (L.length - K.toNat)).filter hasSucceeded := by
  unfold specDeleteSet
  have h : (Max.max ((L.length : Int) - K) 0).toNat = L.length - K.toNat := by
    rcases le_total ((L.length : Int) - K) 0 with h | h
    · rw [max_eq_right h]; omega
    · rw [max_eq_left h]; omega
  rw [h]
  rfl

/-! ## Claims about the loop -/

theorem done_not_mem_header (items : List Job) : Event.done ∉ header items := by
  unfold header
  simp

theorem done_not_mem_live (s : List Job) : Event.done ∉ s.flatMap liveEvents := by
  simp [liveEvents]

theorem deleteSet_subset (sort : timeSlice → timeSlice) (K : Int) (L : List Job) :
    ∀ job ∈ deleteSet sort K L, job ∈ sort L ∧ job.succeeded ≥ 1 := by
  intro job hjob
  unfold deleteSet at hjob
  simp only at hjob
  split at hjob
  · rw [List.mem_filter] at hjob
    exact ⟨List.mem_of_mem_take hjob.1, by simpa [hasSucceeded] using hjob.2⟩
  · simp at hjob

/-- C4: in a dry run (retention count not negative) the run makes no call to
`Delete`: the sequence of delete calls is empty. Each member of the delete-set
is still reported, by the line `Deleting job` followed by the dry-run notice,
in the order of the delete-set, and the run reaches `Done.`. -/
theorem dryRun_makes_no_delete_call (sort : timeSlice → timeSlice) (hs : SortContract sort)
    (L : List Job) (K : Int) (hK : 0 ≤ K) (hKmax : K ≤ maxInt)
    (hlen : (L.length : Int) ≤ maxInt) (del : Deleter) :
    deleteCalls (run sort K true del L).trace = [] ∧
    (run sort K true del L).trace
      = header L ++ Event.blank :: (deleteSet sort K L).flatMap dryRunEvents ++ [Event.done] ∧
    (run sort K true del L).outcome = Outcome.completed := by
  rw [run_dry hs L K hK hKmax hlen del]
  refine ⟨?_, rfl, rfl⟩
  simp [deleteCalls_append, deleteCalls_header, deleteCalls_jobInfo, deleteCalls_bind_dry,
    deleteCalls]

theorem dryRun_makes_no_delete_call_witness :
    deleteCalls (run sortInsertion 3 true deleteOk fiveJobs).trace = [] ∧
    (run sortInsertion 3 true deleteOk fiveJobs).trace
      = header fiveJobs ++ Event.blank :: (deleteSet sortInsertion 3 fiveJobs).flatMap dryRunEvents
        ++ [Event.done] ∧
    (run sortInsertion 3 true deleteOk fiveJobs).outcome = Outcome.completed :=
  dryRun_makes_no_delete_call sortInsertion sortInsertion_contract fiveJobs 3 (by decide)
    (by decide) (by decide) deleteOk

/-- C6: for every listing, whether or not its jobs have a start time, and
every retention count, the delete-set holds only jobs of the listing with
`Succeeded >= 1`, and every name reported by `Deleting job` or passed to
`Delete` is the name of a job of the listing with `Succeeded >= 1`. -/
theorem only_succeeded_jobs_deleted (sort : timeSlice → timeSlice) (hs : SortContract sort)
    (L : List Job) (K : Int) (dryRun : Bool) (del : Deleter) :
    (∀ job ∈ deleteSet sort K L, job ∈ L ∧ job.succeeded ≥ 1) ∧
    (∀ name ∈ selectedNames (run sort K dryRun del L).trace,
      ∃ job ∈ L, job.name = name ∧ job.succeeded ≥ 1) ∧
    (∀ name ∈ deleteCalls (run sort K dryRun del L).trace,
      ∃ job ∈ L, job.name = name ∧ job.succeeded ≥ 1) := by
  have hset : ∀ job ∈ deleteSet sort K L, job ∈ L ∧ job.succeeded ≥ 1 := fun job h =>
    ⟨(hs.perm L).mem_iff.mp (deleteSet_subset sort K L job h).1,
      (deleteSet_subset sort K L job h).2⟩
  obtain ⟨k, hsel, hcalls⟩ := run_names_prefix sort L K dryRun del
  have hnames : ∀ name ∈ ((deleteSet sort K L).take k).map Job.name,
      ∃ job ∈ L, job.name = name ∧ job.succeeded ≥ 1 := by
    intro name hname
    obtain ⟨job, hjob, rfl⟩ := List.mem_map.mp hname
    have := hset job (List.mem_of_mem_take hjob)
    exact ⟨job, this.1, rfl, this.2⟩
  refine ⟨hset, ?_, ?_⟩
  · rw [hsel]; exact hnames
  · rw [hcalls]
    split
    · intro name h; simp at h
    · exact hnames

theorem only_succeeded_jobs_deleted_witness :
    (∀ job ∈ deleteSet sortInsertion 2 fourJobs, job ∈ fourJobs ∧ job.succeeded ≥ 1) ∧
    (∀ name ∈ selectedNames (run sortInsertion 2 false deleteOk fourJobs).trace,
      ∃ job ∈ fourJobs, job.name = name ∧ job.succeeded ≥ 1) ∧
    (∀ name ∈ deleteCalls (run sortInsertion 2 false deleteOk fourJobs).trace,
      ∃ job ∈ fourJobs, job.name = name ∧ job.succeeded ≥ 1) :=
  only_succeeded_jobs_deleted sortInsertion sortInsertion_contract fourJobs 2 false deleteOk

/-- C7: for every listing and every retention count `K >= 0` the delete-set,
and the jobs any run reaches with `Deleting job`, number at most
`max(len(L) - K, 0)`; none is selected when `K >= len(L)`, in particular when
the listing is empty. -/
theorem selected_count_le_excess (sort : timeSlice → timeSlice) (hs : SortContract sort)
    (L : List Job) (K : Int) (hK : 0 ≤ K) (hKmax : K ≤ maxInt)
    (hlen : (L.length : Int) ≤ maxInt) (dryRun : Bool) (del : Deleter) :
    ((deleteSet sort K L).length : Int) ≤ Max.max ((L.length : Int) - K) 0 ∧
    ((selectedNames (run sort K dryRun del L).trace).length : Int)
      ≤ Max.max ((L.length : Int) - K) 0 ∧
    ((L.length : Int) ≤ K →
      deleteSet sort K L = [] ∧ selectedNames (run sort K dryRun del L).trace = []) ∧
    (L = [] → deleteSet sort K L = [] ∧ selectedNames (run sort K dryRun del L).trace = []) := by
  have hset : (deleteSet sort K L).length ≤ L.length - K.toNat := by
    rw [deleteSet_eq_candidates hs L K hK hKmax hlen]
    refine (List.length_filter_le _ _).trans ?_
    unfold candidates
    rw [List.length_take]
    exact Nat.min_le_left _ _
  obtain ⟨k, hsel, _⟩ := run_names_prefix sort L K dryRun del
  have hrun : (selectedNames (run sort K dryRun del L).trace).length ≤ L.length - K.toNat := by
    rw [hsel, List.length_map, List.length_take]
    exact (Nat.min_le_right _ _).trans hset
  have hzero : (L.length : Int) ≤ K →
      deleteSet sort K L = [] ∧ selectedNames (run sort K dryRun del L).trace = [] := by
    intro hle
    have h0 : L.length - K.toNat = 0 := by omega
    rw [h0] at hset hrun
    exact ⟨List.length_eq_zero.mp (Nat.le_zero.mp hset),
      List.length_eq_zero.mp (Nat.le_zero.mp hrun)⟩
  refine ⟨?_, ?_, hzero, ?_⟩
  · have := le_max_left ((L.length : Int) - K) 0
    have := le_max_right ((L.length : Int) - K) 0
    omega
  · have := le_max_left ((L.length : Int) - K) 0
    have := le_max_right ((L.length : Int) - K) 0
    omega
  · intro hL
    apply hzero
    rw [hL]
    simpa using hK

theorem selected_count_le_excess_witness :
    ((deleteSet sortInsertion 10 fiveJobs).length : Int)
      ≤ Max.max ((fiveJobs.length : Int) - 10) 0 ∧
    ((selectedNames (run sortInsertion 10 false deleteOk fiveJobs).trace).length : Int)
      ≤ Max.max ((fiveJobs.length : Int) - 10) 0 ∧
    ((fiveJobs.length : Int) ≤ 10 →
      deleteSet sortInsertion 10 fiveJobs = [] ∧
        selectedNames (run sortInsertion 10 false deleteOk fiveJobs).trace = []) ∧
    (fiveJobs = [] → deleteSet sortInsertion 10 fiveJobs = [] ∧
        selectedNames (run sortInsertion 10 false deleteOk fiveJobs).trace = []) :=
  selected_count_le_excess sortInsertion sortInsertion_contract fiveJobs 10 (by decide)
    (by decide) (by decide) false deleteOk

theorem deleteCalls_report (items : List Job) (body : List Event) :
    deleteCalls (header items ++ Event.blank :: body) = deleteCalls body := by
  rw [deleteCalls_append, deleteCalls_header]
  rfl

/-- C3, as stated, fails. Live run over the two succeeded jobs of scenario 6
with retention count 0: the delete-set is both jobs, the delete call for
`job-a` fails, and the run stops there: `job-b` is never passed to `Delete`,
and the run ends in `panic(err)` without reaching `Done.`. -/
theorem failing_delete_not_isolated :
    deleteSet sortInsertion 0 twoJobs = twoJobs ∧
    deleteFailsFirst 0 "job-a" = some "boom" ∧
    deleteFailsFirst 1 "job-b" = none ∧
    deleteCalls (run sortInsertion 0 false deleteFailsFirst twoJobs).trace = ["job-a"] ∧
    "job-b" ∉ deleteCalls (run sortInsertion 0 false deleteFailsFirst twoJobs).trace ∧
    (run sortInsertion 0 false deleteFailsFirst twoJobs).outcome = Outcome.panicDelete "boom" ∧
    Event.done ∉ (run sortInsertion 0 false deleteFailsFirst twoJobs).trace := by
  decide

/-- C3, amended: in a live run a failing delete call for job `X` ends the run.
When the delete calls for the delete-set members `pre` before `X` succeed and
the call for `X` fails with `err`, the calls made are exactly those for `pre`
and `X`, in order; no member after `X` is attempted, `main` panics with `err`
and `Done.` is not reached. -/
theorem failing_delete_ends_run (sort : timeSlice → timeSlice) (hs : SortContract sort)
    (L : List Job) (K : Int) (hK : 0 ≤ K) (hKmax : K ≤ maxInt)
    (hlen : (L.length : Int) ≤ maxInt) (del : Deleter)
    (pre : List Job) (X : Job) (post : List Job) (err : String)
    (hset : deleteSet sort K L = pre ++ X :: post)
    (hok : ∀ i (h : i < pre.length), del i (pre.get ⟨i, h⟩).name = none)
    (hfail : del pre.length X.name = some err) :
    deleteCalls (run sort K false del L).trace = (pre ++ [X]).map Job.name ∧
    (run sort K false del L).outcome = Outcome.panicDelete err ∧
    Event.done ∉ (run sort K false del L).trace := by
  rw [run_live_fail hs L K hK hKmax hlen del pre X post err hset hok hfail]
  refine ⟨?_, rfl, ?_⟩
  · show deleteCalls (header L ++ Event.blank :: (pre ++ [X]).flatMap liveEvents) = _
    rw [deleteCalls_report]
    exact deleteCalls_bind_live (pre ++ [X])
  · simp only [List.mem_append, List.mem_cons, not_or]
    exact ⟨done_not_mem_header L, by simp, done_not_mem_live _⟩

theorem failing_delete_ends_run_witness :
    deleteCalls (run sortInsertion 0 false deleteFailsFirst twoJobs).trace
      = ([] ++ [(⟨"job-a", 1, some 1⟩ : Job)]).map Job.name ∧
    (run sortInsertion 0 false deleteFailsFirst twoJobs).outcome = Outcome.panicDelete "boom" ∧
    Event.done ∉ (run sortInsertion 0 false deleteFailsFirst twoJobs).trace :=
  failing_delete_ends_run sortInsertion sortInsertion_contract twoJobs 0 (by decide) (by decide)
    (by decide) deleteFailsFirst [] ⟨"job-a", 1, some 1⟩ [⟨"job-b", 1, some 2⟩] "boom"
    (by decide) (by intro i h; simp at h) (by decide)

/-- C5, as stated, fails. Live run over three succeeded jobs with retention
count 0, where the second delete call fails: the delete-set has three
members, but `Delete` is called for the first two only. -/
theorem live_delete_calls_cut_short :
    (deleteSet sortInsertion 0 threeJobs).map Job.name = ["job-a", "job-b", "job-c"] ∧
    deleteCalls (run sortInsertion 0 false deleteFailsSecond threeJobs).trace
      = ["job-a", "job-b"] ∧
    deleteCalls (run sortInsertion 0 false deleteFailsSecond threeJobs).trace
      ≠ (deleteSet sortInsertion 0 threeJobs).map Job.name := by
  decide

/-- C5, amended: in a live run with retention count `K >= 0`, whatever the
delete calls return, the names passed to `Delete` are an initial segment of
the names of the delete-set, in the order of the delete-set (none skipped,
none repeated). When no delete call fails it is the whole sequence, each
member exactly once, and the run reaches `Done.`. The first failing call is
the last one made: when the calls for the members `pre` succeed and the call
for the next member `X` fails, the calls are those for `pre` and `X` and no
other, and the run ends in `panic(err)`. -/
theorem live_delete_calls_prefix (sort : timeSlice → timeSlice) (hs : SortContract sort)
    (L : List Job) (K : Int) (hK : 0 ≤ K) (hKmax : K ≤ maxInt)
    (hlen : (L.length : Int) ≤ maxInt) (del : Deleter) :
    deleteCalls (run sort K false del L).trace <+: (deleteSet sort K L).map Job.name ∧
    ((∀ i (h : i < (deleteSet sort K L).length),
        del i ((deleteSet sort K L).get ⟨i, h⟩).name = none) →
      deleteCalls (run sort K false del L).trace = (deleteSet sort K L).map Job.name ∧
      (run sort K false del L).outcome = Outcome.completed) ∧
    (∀ (pre : List Job) (X : Job) (post : List Job) (err : String),
      deleteSet sort K L = pre ++ X :: post →
      (∀ i (h : i < pre.length), del i (pre.get ⟨i, h⟩).name = none) →
      del pre.length X.name = some err →
      deleteCalls (run sort K false del L).trace = (pre ++ [X]).map Job.name ∧
      (deleteCalls (run sort K false del L).trace).length = pre.length + 1 ∧
      (run sort K false del L).outcome = Outcome.panicDelete err) := by
  refine ⟨?_, ?_, ?_⟩
  · obtain ⟨k, _, hcalls⟩ := run_names_prefix sort L K false del
    rw [hcalls]
    simp only [Bool.false_eq_true, if_false, List.map_take]
    exact List.take_prefix _ _
  · intro hok
    rw [run_live_ok hs L K hK hKmax hlen del hok]
    refine ⟨?_, rfl⟩
    show deleteCalls (header L ++ Event.blank :: (deleteSet sort K L).flatMap liveEvents
      ++ [Event.done]) = _
    rw [deleteCalls_append, deleteCalls_report, deleteCalls_bind_live]
    exact List.append_nil _
  · intro pre X post err hset hok hfail
    rw [run_live_fail hs L K hK hKmax hlen del pre X post err hset hok hfail]
    have hcalls : deleteCalls (header L ++ Event.blank :: (pre ++ [X]).flatMap liveEvents)
        = (pre ++ [X]).map Job.name := by
      rw [deleteCalls_report]
      exact deleteCalls_bind_live (pre ++ [X])
    refine ⟨hcalls, ?_, rfl⟩
    show (deleteCalls (header L ++ Event.blank :: (pre ++ [X]).flatMap liveEvents)).length = _
    rw [hcalls]
    simp

theorem live_delete_calls_prefix_witness :
    deleteCalls (run sortInsertion 0 false deleteFailsSecond threeJobs).trace
      <+: (deleteSet sortInsertion 0 threeJobs).map Job.name ∧
    ((∀ i (h : i < (deleteSet sortInsertion 0 threeJobs).length),
        deleteFailsSecond i ((deleteSet sortInsertion 0 threeJobs).get ⟨i, h⟩).name = none) →
      deleteCalls (run sortInsertion 0 false deleteFailsSecond threeJobs).trace
        = (deleteSet sortInsertion 0 threeJobs).map Job.name ∧
      (run sortInsertion 0 false deleteFailsSecond threeJobs).outcome = Outcome.completed) ∧
    (∀ (pre : List Job) (X : Job) (post : List Job) (err : String),
      deleteSet sortInsertion 0 threeJobs = pre ++ X :: post →
      (∀ i (h : i < pre.length), deleteFailsSecond i (pre.get ⟨i, h⟩).name = none) →
      deleteFailsSecond pre.length X.name = some err →
      deleteCalls (run sortInsertion 0 false deleteFailsSecond threeJobs).trace
        = (pre ++ [X]).map Job.name ∧
      (deleteCalls (run sortInsertion 0 false deleteFailsSecond threeJobs).trace).length
        = pre.length + 1 ∧
      (run sortInsertion 0 false deleteFailsSecond threeJobs).outcome
        = Outcome.panicDelete err) :=
  live_delete_calls_prefix sortInsertion sortInsertion_contract threeJobs 0 (by decide)
    (by decide) (by decide) deleteFailsSecond

/-! ## Claims about the selection -/

theorem selectedNames_report (items : List Job) (body : List Event) :
    selectedNames (header items ++ Event.blank :: body) = selectedNames body := by
  rw [selectedNames_append, selectedNames_header]
  rfl

/-- C1, as stated, fails. Live run over the five jobs of scenario 1 with
retention count 3: every job has a start time, the start times are pairwise
distinct, and the specification's delete-set is `job-a, job-b`; but the delete
call for `job-a` fails, `main` panics, and `Deleting job` is reached for
`job-a` only. -/
theorem selected_cut_short_by_failing_delete :
    (∀ job ∈ fiveJobs, job.startTime ≠ none) ∧
    fiveJobs.Pairwise (fun a b => a.startTime ≠ b.startTime) ∧
    (specDeleteSet fiveJobs 3).map Job.name = ["job-a", "job-b"] ∧
    selectedNames (run sortInsertion 3 false deleteFailsFirst fiveJobs).trace = ["job-a"] ∧
    selectedNames (run sortInsertion 3 false deleteFailsFirst fiveJobs).trace
      ≠ (specDeleteSet fiveJobs 3).map Job.name := by
  decide

/-- C1, amended: for a listing whose jobs all have a start time, pairwise
distinct, and a retention count `K >= 0`, the delete-set of the run is the one
of the specification: the listing sorted ascending by start time, cut to its
first `max(len(L) - K, 0)` jobs, restricted to the jobs with `Succeeded >= 1`,
oldest first. The jobs for which `Deleting job` is reached are exactly these,
in this order, in every dry run and in every live run in which no delete call
fails; in a live run in which the delete calls for the members `pre` succeed
and the call for the next member `X` fails, they are `pre` followed by `X`
and no job after `X`. -/
theorem selected_eq_specDeleteSet (sort : timeSlice → timeSlice) (hs : SortContract sort)
    (L : List Job) (K : Int) (hK : 0 ≤ K) (hKmax : K ≤ maxInt)
    (hlen : (L.length : Int) ≤ maxInt)
    (hstart : ∀ job ∈ L, job.startTime ≠ none)
    (hdist : L.Pairwise (fun a b => a.startTime ≠ b.startTime)) :
    deleteSet sort K L = specDeleteSet L K ∧
    (∀ del : Deleter,
      selectedNames (run sort K true del L).trace = (specDeleteSet L K).map Job.name) ∧
    (∀ del : Deleter,
      (∀ i (h : i < (specDeleteSet L K).length),
        del i ((specDeleteSet L K).get ⟨i, h⟩).name = none) →
      selectedNames (run sort K false del L).trace = (specDeleteSet L K).map Job.name) ∧
    (∀ (del : Deleter) (pre : List Job) (X : Job) (post : List Job) (err : String),
      specDeleteSet L K = pre ++ X :: post →
      (∀ i (h : i < pre.length), del i (pre.get ⟨i, h⟩).name = none) →
      del pre.length X.name = some err →
      selectedNames (run sort K false del L).trace = (pre ++ [X]).map Job.name) := by
  have hset : deleteSet sort K L = specDeleteSet L K := by
    rw [deleteSet_eq_candidates hs L K hK hKmax hlen, specDeleteSet_eq L K hK]
    unfold candidates
    rw [sort_eq_specSort hs L hstart hdist]
  refine ⟨hset, ?_, ?_, ?_⟩
  · intro del
    rw [run_dry hs L K hK hKmax hlen del, hset]
    show selectedNames (header L ++ Event.blank :: (specDeleteSet L K).flatMap dryRunEvents
      ++ [Event.done]) = _
    rw [selectedNames_append, selectedNames_report, selectedNames_bind_dry]
    exact List.append_nil _
  · intro del hok
    rw [← hset] at hok ⊢
    rw [run_live_ok hs L K hK hKmax hlen del hok]
    show selectedNames (header L ++ Event.blank :: (deleteSet sort K L).flatMap liveEvents
      ++ [Event.done]) = _
    rw [selectedNames_append, selectedNames_report, selectedNames_bind_live]
    exact List.append_nil _
  · intro del pre X post err hspec hok hfail
    rw [run_live_fail hs L K hK hKmax hlen del pre X post err (hset.trans hspec) hok hfail]
    show selectedNames (header L ++ Event.blank :: (pre ++ [X]).flatMap liveEvents) = _
    rw [selectedNames_report]
    exact selectedNames_bind_live (pre ++ [X])

theorem selected_eq_specDeleteSet_witness :
    deleteSet sortInsertion 3 fiveJobs = specDeleteSet fiveJobs 3 ∧
    (∀ del : Deleter,
      selectedNames (run sortInsertion 3 true del fiveJobs).trace
        = (specDeleteSet fiveJobs 3).map Job.name) ∧
    (∀ del : Deleter,
      (∀ i (h : i < (specDeleteSet fiveJobs 3).length),
        del i ((specDeleteSet fiveJobs 3).get ⟨i, h⟩).name = none) →
      selectedNames (run sortInsertion 3 false del fiveJobs).trace
        = (specDeleteSet fiveJobs 3).map Job.name) ∧
    (∀ (del : Deleter) (pre : List Job) (X : Job) (post : List Job) (err : String),
      specDeleteSet fiveJobs 3 = pre ++ X :: post →
      (∀ i (h : i < pre.length), del i (pre.get ⟨i, h⟩).name = none) →
      del pre.length X.name = some err →
      selectedNames (run sortInsertion 3 false del fiveJobs).trace
        = (pre ++ [X]).map Job.name) :=
  selected_eq_specDeleteSet sortInsertion sortInsertion_contract fiveJobs 3 (by decide)
    (by decide) (by decide) (by decide) (by decide)

/-- C2: for a listing whose jobs all have a start time and a retention count
`K >= 0`, the sorted listing splits into the candidates and the
`min(K, len(L))` retained jobs; the delete-set is taken from the candidates
alone, whatever the `Succeeded` counts of the retained jobs, so no retained
entry is selected; and no retained job started earlier than any job of the
delete-set. The jobs a run reaches with `Deleting job` are an initial segment
of the delete-set. -/
theorem retained_jobs_never_selected (sort : timeSlice → timeSlice) (hs : SortContract sort)
    (L : List Job) (K : Int) (hK : 0 ≤ K) (hKmax : K ≤ maxInt)
    (hlen : (L.length : Int) ≤ maxInt)
    (hstart : ∀ job ∈ L, job.startTime ≠ none) :
    (candidates sort K L ++ retained sort K L).Perm L ∧
    (retained sort K L).length = min K.toNat L.length ∧
    deleteSet sort K L = (candidates sort K L).filter hasSucceeded ∧
    (∀ j ∈ deleteSet sort K L, ∀ r ∈ retained sort K L,
      Before r.startTime j.startTime = false) ∧
    (∀ (dryRun : Bool) (del : Deleter),
      selectedNames (run sort K dryRun del L).trace <+: (deleteSet sort K L).map Job.name) := by
  have hsplit : candidates sort K L ++ retained sort K L = sort L := by
    unfold candidates retained
    exact List.take_append_drop _ _
  refine ⟨?_, ?_, deleteSet_eq_candidates hs L K hK hKmax hlen, ?_, ?_⟩
  · rw [hsplit]; exact hs.perm L
  · unfold retained
    rw [List.length_drop, hs.length_eq]
    omega
  · intro j hj r hr
    have hasc := hs.ascending L hstart
    rw [← hsplit, List.pairwise_append] at hasc
    rw [deleteSet_eq_candidates hs L K hK hKmax hlen] at hj
    have hjc : j ∈ candidates sort K L := (List.mem_filter.mp hj).1
    have hle := hasc.2.2 j hjc r hr
    have hmem : ∀ x, x ∈ candidates sort K L ++ retained sort K L → x.startTime ≠ none := by
      intro x hx
      rw [hsplit] at hx
      exact hstart x ((hs.perm L).mem_iff.mp hx)
    exact (Before_eq_false_iff r j (hmem r (List.mem_append_right _ hr))
      (hmem j (List.mem_append_left _ hjc))).mpr hle
  · intro dryRun del
    obtain ⟨k, hsel, _⟩ := run_names_prefix sort L K dryRun del
    rw [hsel, List.map_take]
    exact List.take_prefix _ _

theorem retained_jobs_never_selected_witness :
    (candidates sortInsertion 2 fourJobs ++ retained sortInsertion 2 fourJobs).Perm fourJobs ∧
    (retained sortInsertion 2 fourJobs).length = min (2 : Int).toNat fourJobs.length ∧
    deleteSet sortInsertion 2 fourJobs = (candidates sortInsertion 2 fourJobs).filter hasSucceeded ∧
    (∀ j ∈ deleteSet sortInsertion 2 fourJobs, ∀ r ∈ retained sortInsertion 2 fourJobs,
      Before r.startTime j.startTime = false) ∧
    (∀ (dryRun : Bool) (del : Deleter),
      selectedNames (run sortInsertion 2 dryRun del fourJobs).trace
        <+: (deleteSet sortInsertion 2 fourJobs).map Job.name) :=
  retained_jobs_never_selected sortInsertion sortInsertion_contract fourJobs 2 (by decide)
    (by decide) (by decide) (by decide)

/-! ## Claims about the ordering step -/

/-- C8, as stated, fails: `sort.Sort` is not a stable sort. The shell pass
with gap 6 followed by insertion sort, which is `sort.Sort` on 7 to 12
elements in Go 1.6 to 1.18, keeps the contract of `sort.Sort`; on seven jobs
of which `job-a` and `job-b`, listed in this order, have the same start time,
it returns `job-b` before `job-a`. With retention count 5 the delete-set is
then `job-g, job-b`, while plain insertion sort, `sort.Sort` on the same
slice from Go 1.19 on, gives `job-g, job-a`. -/
theorem sort_not_stable :
    SortContract sortShellInsertion ∧ SortContract sortInsertion ∧
    Before (some 5) (some 5) = false ∧
    sevenJobs.filter (fun job => job.name = "job-a" ∨ job.name = "job-b")
      = [⟨"job-a", 1, some 5⟩, ⟨"job-b", 1, some 5⟩] ∧
    (sortShellInsertion sevenJobs).filter (fun job => job.name = "job-a" ∨ job.name = "job-b")
      = [⟨"job-b", 1, some 5⟩, ⟨"job-a", 1, some 5⟩] ∧
    (deleteSet sortShellInsertion 5 sevenJobs).map Job.name = ["job-g", "job-b"] ∧
    (deleteSet sortInsertion 5 sevenJobs).map Job.name = ["job-g", "job-a"] :=
  ⟨sortShellInsertion_contract, sortInsertion_contract, by decide, by decide, by decide,
    by decide, by decide⟩

/-- C8, amended: when no two jobs tie, that is when every job has a start time
and the start times are pairwise distinct, the sorted sequence and the
delete-set with its order are determined by the jobs of the listing alone:
any two routines that keep the contract of `sort.Sort` return the same
sequence, on the listing in any order. -/
theorem untied_sort_determined (sort₁ sort₂ : timeSlice → timeSlice)
    (hs₁ : SortContract sort₁) (hs₂ : SortContract sort₂) (L L' : List Job) (K : Int)
    (hperm : L'.Perm L)
    (hstart : ∀ job ∈ L, job.startTime ≠ none)
    (hdist : L.Pairwise (fun a b => a.startTime ≠ b.startTime)) :
    sort₁ L' = sort₂ L ∧ deleteSet sort₁ K L' = deleteSet sort₂ K L := by
  have hsort : sort₁ L' = sort₂ L := by
    have h1 := strictly_ascending_of_perm L (sort₁ L') ((hs₁.perm L').trans hperm) hstart hdist
      (hs₁.ascending L' (fun job h => hstart job (hperm.mem_iff.mp h)))
    have h2 := strictly_ascending_of_perm L (sort₂ L) (hs₂.perm L) hstart hdist
      (hs₂.ascending L hstart)
    have : IsAntisymm Job (fun a b => a.start < b.start) :=
      ⟨fun a b hab hba => absurd (lt_trans hab hba) (lt_irrefl _)⟩
    exact List.eq_of_perm_of_sorted (((hs₁.perm L').trans hperm).trans (hs₂.perm L).symm) h1 h2
  refine ⟨hsort, ?_⟩
  unfold deleteSet
  rw [hsort, hperm.length_eq]

theorem untied_sort_determined_witness :
    sortShellInsertion fiveJobs.reverse = sortInsertion fiveJobs ∧
    deleteSet sortShellInsertion 3 fiveJobs.reverse = deleteSet sortInsertion 3 fiveJobs :=
  untied_sort_determined sortShellInsertion sortInsertion sortShellInsertion_contract
    sortInsertion_contract fiveJobs fiveJobs.reverse 3 (List.reverse_perm fiveJobs)
    (by decide) (by decide)

/-- C9, as stated, fails. Insertion sort, which is `sort.Sort` on three
elements, leaves the listing `job-a` (start 2), `job-b` (no start time),
`job-c` (start 1) as it is, because `Less` is false whenever `job-b` is
compared: `job-a` stays before `job-c` although it started later. -/
theorem sort_not_ascending_with_missing_start :
    sortInsertion gapJobs = gapJobs ∧
    ¬ (sortInsertion gapJobs).Pairwise
      (fun a b => ∀ s t, a.startTime = some s → b.startTime = some t → s ≤ t) := by
  have h : sortInsertion gapJobs = gapJobs := by decide
  refine ⟨h, ?_⟩
  rw [h]
  intro hp
  unfold gapJobs at hp
  have := (List.pairwise_cons.mp hp).1 ⟨"job-c", 1, some 1⟩ (by simp) 2 1 rfl rfl
  omega

/-- C9, amended: for every listing in which every job has a start time, the
sequence obtained by sorting with `timeSlice.Less` holds the same jobs and is
ascending by start time: of the jobs at two positions `i < j` the one at `i`
did not start later than the one at `j`. -/
theorem sorted_ascending_when_all_started (sort : timeSlice → timeSlice)
    (hs : SortContract sort) (L : List Job) (hstart : ∀ job ∈ L, job.startTime ≠ none) :
    (sort L).Perm L ∧
    (sort L).Pairwise
      (fun a b => ∃ s t, a.startTime = some s ∧ b.startTime = some t ∧ s ≤ t) := by
  refine ⟨hs.perm L, ?_⟩
  refine (hs.ascending L hstart).imp_of_mem ?_
  intro a b ha hb hle
  have hsa := hstart a ((hs.perm L).mem_iff.mp ha)
  have hsb := hstart b ((hs.perm L).mem_iff.mp hb)
  cases h1 : a.startTime with
  | none => exact absurd h1 hsa
  | some s =>
    cases h2 : b.startTime with
    | none => exact absurd h2 hsb
    | some t =>
      refine ⟨s, t, rfl, rfl, ?_⟩
      simpa [Job.start, h1, h2] using hle

theorem sorted_ascending_when_all_started_witness :
    (sortInsertion fiveJobs).Perm fiveJobs ∧
    (sortInsertion fiveJobs).Pairwise
      (fun a b => ∃ s t, a.startTime = some s ∧ b.startTime = some t ∧ s ≤ t) :=
  sorted_ascending_when_all_started sortInsertion sortInsertion_contract fiveJobs (by decide)

/-! ## Claims about the truncation -/

/-- C10, as stated, fails. With the smallest `int` as retention count and an
empty listing, `len(sortedJobs) - maxCount` overflows to a negative number,
`max` clamps it to 0, the slice expression is within bounds and the run
completes. -/
theorem negative_count_in_bounds :
    minInt < 0 ∧
    nJobsToRemove (sortInsertion []) minInt = 0 ∧
    (run sortInsertion minInt false deleteOk []).outcome = Outcome.completed := by
  decide

/-- C10, amended: for a listing `L` and a retention count `K` of type `int`,
the index of the truncation is within bounds exactly when `K >= 0` or
`len(L) - K` exceeds the largest `int` (the subtraction then wraps around to a
negative number and `max` yields 0). For `K < 0` with `len(L) - K`
representable the index exceeds `len(L)`, and the run fails at the truncation
with no job reported and no call to `Delete`. -/
theorem truncation_in_bounds_iff (sort : timeSlice → timeSlice) (hs : SortContract sort)
    (L : List Job) (K : Int) (hKmin : minInt ≤ K) (hKmax : K ≤ maxInt)
    (hlen : (L.length : Int) ≤ maxInt) :
    ((0 ≤ nJobsToRemove (sort L) K ∧ nJobsToRemove (sort L) K ≤ (L.length : Int)) ↔
      (0 ≤ K ∨ maxInt < (L.length : Int) - K)) ∧
    (0 ≤ K → nJobsToRemove (sort L) K = Max.max ((L.length : Int) - K) 0) ∧
    (K < 0 → (L.length : Int) - K ≤ maxInt →
      (L.length : Int) < nJobsToRemove (sort L) K ∧
      ∀ (dryRun : Bool) (del : Deleter),
        run sort K dryRun del L = ⟨header L ++ [Event.blank], Outcome.panicSliceBounds⟩ ∧
        selectedNames (run sort K dryRun del L).trace = [] ∧
        deleteCalls (run sort K dryRun del L).trace = []) := by
  have hn : nJobsToRemove (sort L) K
      = if wrapInt ((L.length : Int) - K) > 0 then wrapInt ((L.length : Int) - K) else 0 := by
    unfold nJobsToRemove timeSlice.Len max
    rw [hs.length_eq]
  unfold minInt at hKmin
  unfold maxInt at hKmax hlen ⊢
  refine ⟨?_, ?_, ?_⟩
  · rw [hn]
    unfold wrapInt
    split <;> constructor <;> intro h <;> omega
  · intro hK
    rw [hn]
    unfold wrapInt
    rcases le_total ((L.length : Int) - K) 0 with h | h
    · rw [max_eq_right h]; split <;> omega
    · rw [max_eq_left h]; split <;> omega
  · intro hK hrep
    have hgt : (L.length : Int) < nJobsToRemove (sort L) K := by
      rw [hn]
      unfold wrapInt
      split <;> omega
    refine ⟨hgt, ?_⟩
    intro dryRun del
    have hrun : run sort K dryRun del L
        = ⟨header L ++ [Event.blank], Outcome.panicSliceBounds⟩ := by
      unfold run
      simp only
      rw [if_neg (by omega)]
    rw [hrun]
    refine ⟨rfl, ?_, ?_⟩
    · show selectedNames (header L ++ [Event.blank]) = []
      rw [selectedNames_report]; rfl
    · show deleteCalls (header L ++ [Event.blank]) = []
      rw [deleteCalls_report]; rfl

theorem truncation_in_bounds_iff_witness :
    ((0 ≤ nJobsToRemove (sortInsertion fiveJobs) (-1) ∧
        nJobsToRemove (sortInsertion fiveJobs) (-1) ≤ (fiveJobs.length : Int)) ↔
      (0 ≤ (-1 : Int) ∨ maxInt < (fiveJobs.length : Int) - (-1))) ∧
    (0 ≤ (-1 : Int) →
      nJobsToRemove (sortInsertion fiveJobs) (-1) = Max.max ((fiveJobs.length : Int) - (-1)) 0) ∧
    ((-1 : Int) < 0 → (fiveJobs.length : Int) - (-1) ≤ maxInt →
      (fiveJobs.length : Int) < nJobsToRemove (sortInsertion fiveJobs) (-1) ∧
      ∀ (dryRun : Bool) (del : Deleter),
        run sortInsertion (-1) dryRun del fiveJobs
          = ⟨header fiveJobs ++ [Event.blank], Outcome.panicSliceBounds⟩ ∧
        selectedNames (run sortInsertion (-1) dryRun del fiveJobs).trace = [] ∧
        deleteCalls (run sortInsertion (-1) dryRun del fiveJobs).trace = []) :=
  truncation_in_bounds_iff sortInsertion sortInsertion_contract fiveJobs (-1) (by decide)
    (by decide) (by decide)

end Janitor
